import Mathlib

/-!
Verification of the `javachangename` tool (`src/main.go`): a directory walker
(`main`, lines 25-46) with two file processors, `processJavaFile` (lines 55-120)
and `processBuildFile` (lines 122-165), both doing literal string replacement.

Strings are modelled as `List Char`.  Go's `strings.ReplaceAll(s, pat, rep)`
is modelled by `goReplaceAll pat rep s`, `strings.Replace(s, pat, rep, 1)` by
`goReplaceOne pat rep s`, `strings.Contains(s, pat)` by `hasSub pat s`,
`strings.HasSuffix(s, pat)` by `endsWithL pat s`, and `strings.Split(s, ".")`
by `splitDot s`.  `goReplaceAll` recurses with an explicit fuel equal to the
length of the scanned list, which always suffices (each step consumes at
least one character); `goReplaceAllAux_congr` below shows any sufficient
fuel gives the same result.
-/

/-- Start-of-string match: `startsWithL pat s` is true when `pat` occurs at
the very start of `s` (Go's `strings.HasPrefix(s, pat)`, used inside the
scanning loop of `strings.Replace`). -/
def startsWithL : List Char → List Char → Bool
  | [], _ => true
  | _ :: _, [] => false
  | a :: as, b :: bs => a == b && startsWithL as bs

/-- Go's `strings.Contains(s, pat)`: `pat` occurs somewhere in `s`. -/
def hasSub (pat : List Char) : List Char → Bool
  | [] => pat.isEmpty
  | c :: rest => startsWithL pat (c :: rest) || hasSub pat rest

/-- Scanning loop of Go's `strings.Replace(s, pat, rep, -1)`: replace each
non-overlapping occurrence of `pat` by `rep`, left to right; an empty `pat`
inserts `rep` before every character and at the end, as in Go.  The fuel
argument only bounds the recursion; `s.length` fuel always suffices. -/
def goReplaceAllAux (pat rep : List Char) : Nat → List Char → List Char
  | _, [] => if pat.isEmpty then rep else []
  | fuel + 1, c :: rest =>
    if pat.isEmpty then rep ++ c :: goReplaceAllAux pat rep fuel rest
    else if startsWithL pat (c :: rest) then
      rep ++ goReplaceAllAux pat rep fuel (List.drop pat.length (c :: rest))
    else c :: goReplaceAllAux pat rep fuel rest
  | 0, s => s

/-- Go's `strings.ReplaceAll(s, pat, rep)`. -/
def goReplaceAll (pat rep s : List Char) : List Char :=
  goReplaceAllAux pat rep s.length s

/-- Go's `strings.Replace(s, pat, rep, 1)`: replace only the first occurrence
of `pat` by `rep`; an empty `pat` inserts `rep` at the start, as in Go. -/
def goReplaceOne (pat rep : List Char) : List Char → List Char
  | [] => if pat.isEmpty then rep else []
  | c :: rest =>
    if pat.isEmpty then rep ++ c :: rest
    else if startsWithL pat (c :: rest) then rep ++ List.drop pat.length (c :: rest)
    else c :: goReplaceOne pat rep rest

/-- End-of-string match, Go's `strings.HasSuffix(s, pat)`. -/
def endsWithL (pat s : List Char) : Bool := startsWithL pat.reverse s.reverse

/-- Go's `strings.Split(s, ".")` (the separator is the single character `.`):
splits into the (possibly empty) segments between dots; the empty string
yields one empty segment, as in Go. -/
def splitDot : List Char → List (List Char)
  | [] => [[]]
  | c :: rest =>
    if c == '.' then [] :: splitDot rest
    else match splitDot rest with
      | [] => [[c]]
      | p :: ps => (c :: p) :: ps

/-- Go's `strings.Join(parts, ".")`. -/
def joinDot : List (List Char) → List Char
  | [] => []
  | [p] => p
  | p :: q :: ps => p ++ '.' :: joinDot (q :: ps)

/-- The path separator, `filepath.Separator` on Unix. -/
def sepChar : Char := '/'

/-- Content rewrite of `processJavaFile` (main.go lines 63-68): replace
`"package " + oldName` by `"package " + newName`, then on the result
`"import " + oldName` by `"import " + newName`. -/
def processJavaFileContent (oldName newName content : List Char) : List Char :=
  goReplaceAll ("import ".toList ++ oldName) ("import ".toList ++ newName)
    (goReplaceAll ("package ".toList ++ oldName) ("package ".toList ++ newName) content)

/-- Final path of the file processed by `processJavaFile` (main.go lines
71-72 and 99-101): if the path contains the old dotted name with dots
replaced by the separator, the first occurrence is replaced by the new
path form; otherwise the path is unchanged. -/
def processJavaFileNewPath (oldName newName filePath : List Char) : List Char :=
  let oldPackagePath := goReplaceAll ['.'] [sepChar] oldName
  let newPackagePath := goReplaceAll ['.'] [sepChar] newName
  if hasSub oldPackagePath filePath then
    goReplaceOne oldPackagePath newPackagePath filePath
  else filePath

/-- Directory part of a path: `filepath.Dir` (main.go line 103) restricted to
paths already in clean form (no `.`/`..` segments, no repeated or trailing
separators), where it strips the last component; with no separator it is
`"."`, and `"/x"` gives `"/"`. -/
def dirOf (p : List Char) : List Char :=
  let tail := p.reverse.dropWhile (fun c => c ≠ sepChar)
  if tail = [] then ['.']
  else if tail.drop 1 = [] then [sepChar]
  else (tail.drop 1).reverse

/-- A filesystem-mutating operation performed by the processors. -/
inductive FsAction where
  | write (path content : List Char)
  | mkdirAll (dir : List Char)
  | rename (src dst : List Char)
deriving DecidableEq, Repr

/-- The sequence of filesystem operations of one `processJavaFile` call
(main.go lines 90-117): write the rewritten content back when it changed;
then, when the path contains the old package path and the rewritten path
differs, create the destination directory when it does not exist (`dirExists`
models the `os.Stat` check of line 104) and rename the file. -/
def processJavaFileActions (oldName newName filePath content : List Char)
    (dirExists : Bool) : List FsAction :=
  let modifiedContent := processJavaFileContent oldName newName content
  let writeActs : List FsAction :=
    if modifiedContent ≠ content then [.write filePath modifiedContent] else []
  let oldPackagePath := goReplaceAll ['.'] [sepChar] oldName
  let newPackagePath := goReplaceAll ['.'] [sepChar] newName
  let moveActs : List FsAction :=
    if hasSub oldPackagePath filePath then
      let newFilePath := goReplaceOne oldPackagePath newPackagePath filePath
      if newFilePath ≠ filePath then
        (if dirExists then [] else [.mkdirAll (dirOf newFilePath)]) ++
          [.rename filePath newFilePath]
      else []
    else []
  writeActs ++ moveActs

/-- Content rewrite of `processBuildFile` (main.go lines 130-153): replace the
full old name, then the last dot-segment (artifact), then — when both dotted
groups are non-empty — the group. -/
def processBuildFileContent (oldName newName content : List Char) : List Char :=
  let modified1 := goReplaceAll oldName newName content
  let oldParts := splitDot oldName
  let newParts := splitDot newName
  if 0 < oldParts.length ∧ 0 < newParts.length then
    let oldArtifact := oldParts.getLastD []
    let newArtifact := newParts.getLastD []
    let modified2 := goReplaceAll oldArtifact newArtifact modified1
    let oldGroup := joinDot oldParts.dropLast
    let newGroup := joinDot newParts.dropLast
    if oldGroup ≠ [] ∧ newGroup ≠ [] then goReplaceAll oldGroup newGroup modified2
    else modified2
  else modified1

/-- The filesystem operations of one `processBuildFile` call (main.go lines
156-162): write back exactly when the content changed. -/
def processBuildFileActions (oldName newName filePath content : List Char) :
    List FsAction :=
  if processBuildFileContent oldName newName content ≠ content then
    [.write filePath (processBuildFileContent oldName newName content)]
  else []

/-- Result of one processor call on a file: final content and whether a write
happened (main.go lines 90-96 and 156-162). -/
def processJavaFileRun (oldName newName content : List Char) : List Char × Bool :=
  let m := processJavaFileContent oldName newName content
  if m ≠ content then (m, true) else (content, false)

/-- Result of one `processBuildFile` call on a file's content: final content
and whether a write happened (main.go lines 156-162). -/
def processBuildFileRun (oldName newName content : List Char) : List Char × Bool :=
  let m := processBuildFileContent oldName newName content
  if m ≠ content then (m, true) else (content, false)

/-- The spec's description of the build-file rewrite, written after the
claim's words: full old name first, then the trailing dot-segment
(artifact), then — only when both dotted groups are non-empty — the group,
each an unscoped literal replacement applied to the previous result. -/
def lastDotSegment (s : List Char) : List Char := (splitDot s).getLastD []

/-- The dotted group of a name, following the spec's glossary: the part of
the dot-split before the last segment, rejoined with dots. -/
def dottedGroup (s : List Char) : List Char := joinDot (splitDot s).dropLast

/-- Build-file rewrite as the spec states it (see `lastDotSegment`,
`dottedGroup`). -/
def buildFileReplacementSpec (oldName newName content : List Char) : List Char :=
  let step1 := goReplaceAll oldName newName content
  let step2 := goReplaceAll (lastDotSegment oldName) (lastDotSegment newName) step1
  if dottedGroup oldName ≠ [] ∧ dottedGroup newName ≠ [] then
    goReplaceAll (dottedGroup oldName) (dottedGroup newName) step2
  else step2

/-- Which processor a dispatched file goes to (main.go lines 36-43). -/
inductive Handler where
  | java
  | build
deriving DecidableEq, Repr

mutual
/-- A directory tree as seen by `filepath.Walk`: a regular file with a name
and content, or a directory with a name and children (in traversal order). -/
inductive FTree where
  | file (name content : List Char)
  | dir (name : List Char) (children : FForest)
deriving DecidableEq, Repr

/-- The ordered children of a directory. -/
inductive FForest where
  | nil
  | cons (t : FTree) (ts : FForest)
deriving DecidableEq, Repr
end

/-- A file dispatched by the walker: its path as the list of name components
from the walk root (the file name last), its content, and its processor. -/
structure WalkEntry where
  path : List (List Char)
  content : List Char
  handler : Handler
deriving DecidableEq, Repr

mutual
/-- The files the walk callback of `main` (main.go lines 25-46) dispatches to
a processor, in traversal order: directories named `.git` or `target` are
skipped whole (`filepath.SkipDir`, lines 31-33); files ending in `.java` go
to `processJavaFile` (lines 36-38); files named `pom.xml` or `build.gradle`
go to `processBuildFile` (lines 41-43); everything else is ignored. -/
def walkEntries : FTree → List WalkEntry
  | .file name content =>
    if endsWithL ".java".toList name then [⟨[name], content, .java⟩]
    else if name = "pom.xml".toList ∨ name = "build.gradle".toList then
      [⟨[name], content, .build⟩]
    else []
  | .dir name children =>
    if name = ".git".toList ∨ name = "target".toList then []
    else (walkForest children).map fun e => ⟨name :: e.path, e.content, e.handler⟩

/-- Walk of the children of a directory, in order. -/
def walkForest : FForest → List WalkEntry
  | .nil => []
  | .cons t ts => walkEntries t ++ walkForest ts
end

/-- Flat path of a walk entry: components joined with the separator
(`filepath.Join` along the walk, for plain component names). -/
def joinPath : List (List Char) → List Char
  | [] => []
  | [p] => p
  | p :: q :: ps => p ++ sepChar :: joinPath (q :: ps)

/-- Filesystem operations of one dispatched file (main.go lines 36-43):
`.java` files run `processJavaFile`, build files run `processBuildFile`.
`dirExists` models the `os.Stat` check of line 104 on the destination
directory. -/
def entryActions (oldName newName : List Char) (dirExists : List Char → Bool)
    (e : WalkEntry) : List FsAction :=
  match e.handler with
  | .java =>
    let p := joinPath e.path
    processJavaFileActions oldName newName p e.content
      (dirExists (dirOf (processJavaFileNewPath oldName newName p)))
  | .build => processBuildFileActions oldName newName (joinPath e.path) e.content

/-- All filesystem operations of one whole walk (main.go lines 25-46), in
traversal order. -/
def walkActions (oldName newName : List Char) (dirExists : List Char → Bool)
    (t : FTree) : List FsAction :=
  (walkEntries t).flatMap (entryActions oldName newName dirExists)

/-- The whole program (main.go lines 12-53) on a tree: when any of the three
flag values is empty, `main` prints usage and calls `log.Fatal` (lines 18-21)
before `filepath.Walk` is reached — no filesystem operation happens; the
first component tells whether this fatal-usage exit was taken, the second
lists the filesystem operations performed. -/
def mainModel (projectDir oldName newName : List Char)
    (dirExists : List Char → Bool) (t : FTree) : Bool × List FsAction :=
  if projectDir = [] ∨ oldName = [] ∨ newName = [] then (true, [])
  else (false, walkActions oldName newName dirExists t)

/-- The reasons a file operation can fail during the walk, matching the error
sites of main.go: a read (lines 58-61, 125-128), a write (91-94, 157-160),
a directory creation (105-108), a rename (111-114), or an error handed to
the walk callback itself (26-28). -/
inductive ErrCause where
  | readErr
  | writeErr
  | mkdirErr
  | renameErr
  | walkErr
deriving DecidableEq, Repr

/-- One visited file together with the failure, if any, its processing would
hit: `none` when all its operations succeed, `some c` when its first failing
operation fails with cause `c`. -/
structure VisitedFile where
  path : List Char
  fail : Option ErrCause
deriving DecidableEq, Repr

/-- Outcome of the walk: success, or the error `filepath.Walk` returns, which
`main` passes to `log.Fatalf` (main.go lines 48-50); the error carries the
failing path and cause, as built by the `fmt.Errorf` wrappers. -/
inductive WalkOutcome where
  | ok
  | fatal (path : List Char) (cause : ErrCause)
deriving DecidableEq, Repr

/-- Sequential processing of the visited files: each processor error is
returned to the walk callback, which returns it to `filepath.Walk` (main.go
lines 37, 42), aborting the walk; files after the first failing one are
never processed, and nothing is retried. -/
def walkRun : List VisitedFile → WalkOutcome
  | [] => .ok
  | f :: rest =>
    match f.fail with
    | some c => .fatal f.path c
    | none => walkRun rest

theorem startsWithL_append_drop : ∀ (pat s : List Char),
    startsWithL pat s = true → pat ++ List.drop pat.length s = s := by
  intro pat
  induction pat with
  | nil => intro s _; simp
  | cons a as ih =>
    intro s h
    cases s with
    | nil => simp [startsWithL] at h
    | cons b bs =>
      simp only [startsWithL, Bool.and_eq_true, beq_iff_eq] at h
      obtain ⟨hab, hsw⟩ := h
      subst hab
      simpa [List.cons_append] using congrArg (fun l => a :: l) (ih bs hsw)

theorem goReplaceAllAux_congr (pat rep : List Char) :
    ∀ (f1 f2 : Nat) (s : List Char), s.length ≤ f1 → s.length ≤ f2 →
      goReplaceAllAux pat rep f1 s = goReplaceAllAux pat rep f2 s := by
  intro f1
  induction f1 with
  | zero =>
    intro f2 s h1 _
    have hs : s = [] := List.eq_nil_of_length_eq_zero (Nat.le_zero.mp h1)
    subst hs
    cases f2 <;> simp [goReplaceAllAux]
  | succ f ih =>
    intro f2 s h1 h2
    cases s with
    | nil => cases f2 <;> simp [goReplaceAllAux]
    | cons c rest =>
      simp only [List.length_cons] at h1 h2
      obtain ⟨f2p, rfl⟩ : ∃ k, f2 = k + 1 := ⟨f2 - 1, by omega⟩
      by_cases hpe : pat.isEmpty
      · simp only [goReplaceAllAux, hpe, if_true]
        rw [ih f2p rest (by omega) (by omega)]
      · have hplen : 0 < pat.length := by cases pat <;> simp_all
        by_cases hsw : startsWithL pat (c :: rest)
        · have hdl : (List.drop pat.length (c :: rest)).length ≤ f := by
            simp [List.length_drop]; omega
          have hdl2 : (List.drop pat.length (c :: rest)).length ≤ f2p := by
            simp [List.length_drop]; omega
          simp only [goReplaceAllAux, hpe, hsw, if_true, if_false, Bool.false_eq_true]
          rw [ih f2p _ hdl hdl2]
        · simp only [goReplaceAllAux, hpe, hsw, if_true, if_false, Bool.false_eq_true]
          rw [ih f2p rest (by omega) (by omega)]

theorem goReplaceAllAux_not_hasSub (pat rep : List Char) (hp : pat ≠ []) :
    ∀ (fuel : Nat) (s : List Char), s.length ≤ fuel → hasSub pat s = false →
      goReplaceAllAux pat rep fuel s = s := by
  intro fuel
  induction fuel with
  | zero =>
    intro s h1 _
    have hs : s = [] := List.eq_nil_of_length_eq_zero (Nat.le_zero.mp h1)
    subst hs
    simp [goReplaceAllAux, hp]
  | succ f ih =>
    intro s h1 hsub
    cases s with
    | nil => simp [goReplaceAllAux, hp]
    | cons c rest =>
      simp only [hasSub, Bool.or_eq_false_iff] at hsub
      obtain ⟨hsw, hrest⟩ := hsub
      have hpe : pat.isEmpty = false := by cases pat <;> simp_all
      simp only [goReplaceAllAux, hpe, hsw, if_false, Bool.false_eq_true]
      simp only [List.length_cons] at h1
      rw [ih rest (by omega) hrest]

/-- A pattern with no occurrence in the scanned string is replaced nowhere:
the content is returned unchanged. -/
theorem goReplaceAll_not_hasSub (pat rep s : List Char) (hp : pat ≠ [])
    (h : hasSub pat s = false) : goReplaceAll pat rep s = s :=
  goReplaceAllAux_not_hasSub pat rep hp s.length s (Nat.le_refl _) h

theorem goReplaceAllAux_self (pat : List Char) :
    ∀ (fuel : Nat) (s : List Char), s.length ≤ fuel →
      goReplaceAllAux pat pat fuel s = s := by
  intro fuel
  induction fuel with
  | zero =>
    intro s h1
    have hs : s = [] := List.eq_nil_of_length_eq_zero (Nat.le_zero.mp h1)
    subst hs
    cases hpe : pat.isEmpty <;> simp_all [goReplaceAllAux]
  | succ f ih =>
    intro s h1
    cases s with
    | nil => cases hpe : pat.isEmpty <;> simp_all [goReplaceAllAux]
    | cons c rest =>
      simp only [List.length_cons] at h1
      by_cases hpe : pat.isEmpty
      · have : pat = [] := by cases pat <;> simp_all
        subst this
        simp only [goReplaceAllAux, List.isEmpty_nil, if_true, List.nil_append]
        rw [ih rest (by omega)]
      · have hplen : 0 < pat.length := by cases pat <;> simp_all
        by_cases hsw : startsWithL pat (c :: rest)
        · have hdl : (List.drop pat.length (c :: rest)).length ≤ f := by
            simp [List.length_drop]; omega
          simp only [goReplaceAllAux, hpe, hsw, if_true, if_false, Bool.false_eq_true]
          rw [ih _ hdl]
          exact startsWithL_append_drop pat (c :: rest) hsw
        · simp only [goReplaceAllAux, hpe, hsw, if_true, if_false, Bool.false_eq_true]
          rw [ih rest (by omega)]

/-- Replacing a pattern by itself changes nothing (so `strings.ReplaceAll`
with equal old and new arguments is the identity). -/
theorem goReplaceAll_self (pat s : List Char) : goReplaceAll pat pat s = s :=
  goReplaceAllAux_self pat s.length s (Nat.le_refl _)

/-- Replacing the first occurrence of a pattern by itself changes nothing. -/
theorem goReplaceOne_self (pat : List Char) : ∀ s, goReplaceOne pat pat s = s := by
  intro s
  induction s with
  | nil => cases hpe : pat.isEmpty <;> simp_all [goReplaceOne]
  | cons c rest ih =>
    by_cases hpe : pat.isEmpty
    · have : pat = [] := by cases pat <;> simp_all
      subst this
      simp [goReplaceOne]
    · by_cases hsw : startsWithL pat (c :: rest)
      · simp only [goReplaceOne, hpe, hsw, if_true, if_false, Bool.false_eq_true]
        exact startsWithL_append_drop pat (c :: rest) hsw
      · simp only [goReplaceOne, hpe, hsw, if_true, if_false, Bool.false_eq_true]
        rw [ih]

theorem splitDot_ne_nil (s : List Char) : splitDot s ≠ [] := by
  cases s with
  | nil => simp [splitDot]
  | cons c rest =>
    simp only [splitDot]
    by_cases hc : c == '.'
    · simp [hc]
    · simp only [hc, if_false, Bool.false_eq_true]
      split <;> simp

/-- Last component of a path given as a component list (the file's name). -/
def lastName : List (List Char) → List Char
  | [] => []
  | [p] => p
  | _ :: q :: ps => lastName (q :: ps)

theorem lastName_cons_of_ne_nil (name : List Char) (p : List (List Char))
    (h : p ≠ []) : lastName (name :: p) = lastName p := by
  cases p with
  | nil => exact absurd rfl h
  | cons q ps => rfl

/-- The property every dispatched walk entry satisfies: no path component is
`.git` or `target`, the path is non-empty, and the file name (the last
component) matches the processor it was dispatched to. -/
def SoundEntry (e : WalkEntry) : Prop :=
  (∀ comp ∈ e.path, comp ≠ ".git".toList ∧ comp ≠ "target".toList) ∧
  e.path ≠ [] ∧
  (e.handler = .java → endsWithL ".java".toList (lastName e.path) = true) ∧
  (e.handler = .build →
    lastName e.path = "pom.xml".toList ∨ lastName e.path = "build.gradle".toList)

mutual
theorem walkEntries_sound : ∀ (t : FTree) (e : WalkEntry),
    e ∈ walkEntries t → SoundEntry e := by
  intro t e he
  cases t with
  | file name content =>
    simp only [walkEntries] at he
    split at he
    · next hj =>
      simp only [List.mem_singleton] at he
      subst he
      refine ⟨?_, by simp, fun _ => by simpa [lastName] using hj, by simp⟩
      intro comp hc
      simp only [List.mem_singleton] at hc
      subst hc
      constructor
      · rintro rfl; exact absurd hj (by decide)
      · rintro rfl; exact absurd hj (by decide)
    · split at he
      · next hb =>
        simp only [List.mem_singleton] at he
        subst he
        refine ⟨?_, by simp, by simp, fun _ => by simpa [lastName] using hb⟩
        intro comp hc
        simp only [List.mem_singleton] at hc
        subst hc
        rcases hb with rfl | rfl <;> exact ⟨by decide, by decide⟩
      · simp at he
  | dir name children =>
    simp only [walkEntries] at he
    split at he
    · simp at he
    · next hskip =>
      rw [List.mem_map] at he
      obtain ⟨e', he', rfl⟩ := he
      obtain ⟨hcomp, hne, hjava, hbuild⟩ := walkForest_sound children e' he'
      push_neg at hskip
      refine ⟨?_, by simp, ?_, ?_⟩
      · intro comp hc
        rcases List.mem_cons.mp hc with rfl | hc'
        · exact hskip
        · exact hcomp comp hc'
      · intro hj
        simpa [lastName_cons_of_ne_nil name e'.path hne] using hjava hj
      · intro hb
        simpa [lastName_cons_of_ne_nil name e'.path hne] using hbuild hb

theorem walkForest_sound : ∀ (ts : FForest) (e : WalkEntry),
    e ∈ walkForest ts → SoundEntry e := by
  intro ts e he
  cases ts with
  | nil => simp [walkForest] at he
  | cons t ts' =>
    simp only [walkForest, List.mem_append] at he
    rcases he with h | h
    · exact walkEntries_sound t e h
    · exact walkForest_sound ts' e h
end

theorem walkRun_error_of_first_fail : ∀ (pre : List VisitedFile)
    (f : VisitedFile) (post : List VisitedFile) (c : ErrCause),
    (∀ x ∈ pre, x.fail = none) → f.fail = some c →
    walkRun (pre ++ f :: post) = .fatal f.path c := by
  intro pre
  induction pre with
  | nil => intro f post c _ hf; simp [walkRun, hf]
  | cons x xs ih =>
    intro f post c hpre hf
    have hx : x.fail = none := hpre x (by simp)
    simp only [List.cons_append, walkRun, hx]
    exact ih f post c (fun y hy => hpre y (by simp [hy])) hf

theorem walkRun_ok_iff : ∀ (l : List VisitedFile),
    walkRun l = .ok ↔ ∀ x ∈ l, x.fail = none := by
  intro l
  induction l with
  | nil => simp [walkRun]
  | cons x xs ih =>
    cases hx : x.fail with
    | some c => simp [walkRun, hx]
    | none => simp [walkRun, hx, ih]

/-- C1: the Java file processor rewrites content exactly by the literal
replacement of every occurrence of `"package " + old` by `"package " + new`
and then of `"import " + old` by `"import " + new`; content free of both
patterns is returned unchanged, and `package com.old.foo;` becomes
`package com.new.foo;` for old `com.old`, new `com.new`. -/
theorem spec_C1 :
    (∀ oldName newName content : List Char,
        processJavaFileContent oldName newName content =
          goReplaceAll ("import ".toList ++ oldName) ("import ".toList ++ newName)
            (goReplaceAll ("package ".toList ++ oldName)
              ("package ".toList ++ newName) content)) ∧
    (∀ oldName newName content : List Char,
        hasSub ("package ".toList ++ oldName) content = false →
        hasSub ("import ".toList ++ oldName) content = false →
        processJavaFileContent oldName newName content = content) ∧
    processJavaFileContent "com.old".toList "com.new".toList
        "package com.old.foo;".toList = "package com.new.foo;".toList := by
  refine ⟨fun _ _ _ => rfl, ?_, by decide⟩
  intro oldName newName content h1 h2
  have hne1 : ("package ".toList ++ oldName) ≠ [] := by
    intro h; exact absurd (List.append_eq_nil.mp h).1 (by decide)
  have hne2 : ("import ".toList ++ oldName) ≠ [] := by
    intro h; exact absurd (List.append_eq_nil.mp h).1 (by decide)
  unfold processJavaFileContent
  rw [goReplaceAll_not_hasSub _ _ _ hne1 h1, goReplaceAll_not_hasSub _ _ _ hne2 h2]

/-- Witness for C1 at a concrete input: a file with no package or import
declaration mentioning the old name is left unchanged. -/
theorem spec_C1_witness :
    processJavaFileContent "com.old".toList "com.new".toList
      "class A".toList = "class A".toList :=
  spec_C1.2.1 _ _ _ (by decide) (by decide)

/-- C2: a `.java` file whose path contains the old package path is moved to
the path with the first occurrence replaced by the new package path (the
destination directory being created first when missing), a file whose path
does not contain it is not moved, and `.../com/old/Foo.java` ends up at
`.../com/new/Foo.java`. -/
theorem spec_C2 :
    (∀ oldName newName filePath : List Char,
        hasSub (goReplaceAll ['.'] [sepChar] oldName) filePath = true →
        processJavaFileNewPath oldName newName filePath =
          goReplaceOne (goReplaceAll ['.'] [sepChar] oldName)
            (goReplaceAll ['.'] [sepChar] newName) filePath) ∧
    (∀ oldName newName filePath : List Char,
        hasSub (goReplaceAll ['.'] [sepChar] oldName) filePath = false →
        processJavaFileNewPath oldName newName filePath = filePath) ∧
    (∀ (oldName newName filePath content : List Char) (dirExists : Bool),
        hasSub (goReplaceAll ['.'] [sepChar] oldName) filePath = false →
        processJavaFileActions oldName newName filePath content dirExists =
          (if processJavaFileContent oldName newName content ≠ content then
            [.write filePath (processJavaFileContent oldName newName content)]
          else [])) ∧
    (∀ (oldName newName filePath content : List Char) (dirExists : Bool),
        hasSub (goReplaceAll ['.'] [sepChar] oldName) filePath = true →
        goReplaceOne (goReplaceAll ['.'] [sepChar] oldName)
            (goReplaceAll ['.'] [sepChar] newName) filePath ≠ filePath →
        processJavaFileActions oldName newName filePath content dirExists =
          (if processJavaFileContent oldName newName content ≠ content then
            [.write filePath (processJavaFileContent oldName newName content)]
          else []) ++
          (if dirExists then [] else
            [.mkdirAll (dirOf (goReplaceOne (goReplaceAll ['.'] [sepChar] oldName)
              (goReplaceAll ['.'] [sepChar] newName) filePath))]) ++
          [.rename filePath (goReplaceOne (goReplaceAll ['.'] [sepChar] oldName)
            (goReplaceAll ['.'] [sepChar] newName) filePath)]) ∧
    processJavaFileNewPath "com.old".toList "com.new".toList
        "proj/src/com/old/Foo.java".toList = "proj/src/com/new/Foo.java".toList := by
  refine ⟨?_, ?_, ?_, ?_, by decide⟩
  · intro oldName newName filePath h
    simp [processJavaFileNewPath, h]
  · intro oldName newName filePath h
    simp [processJavaFileNewPath, h]
  · intro oldName newName filePath content dirExists h
    simp [processJavaFileActions, h]
  · intro oldName newName filePath content dirExists h1 h2
    simp [processJavaFileActions, h1, h2]

/-- Witness for C2 at concrete inputs: a path containing `com/old` is moved
with the first occurrence replaced, one without it is untouched, and the
action list of a moved file ends with its rename. -/
theorem spec_C2_witness :
    processJavaFileNewPath "com.old".toList "com.new".toList
        "proj/src/com/old/Foo.java".toList =
      goReplaceOne (goReplaceAll ['.'] [sepChar] "com.old".toList)
        (goReplaceAll ['.'] [sepChar] "com.new".toList)
        "proj/src/com/old/Foo.java".toList ∧
    processJavaFileNewPath "com.old".toList "com.new".toList
        "proj/src/org/x/Bar.java".toList = "proj/src/org/x/Bar.java".toList ∧
    processJavaFileActions "com.old".toList "com.new".toList
        "proj/src/com/old/Foo.java".toList "package com.old;".toList false =
      (if processJavaFileContent "com.old".toList "com.new".toList
          "package com.old;".toList ≠ "package com.old;".toList then
        [.write "proj/src/com/old/Foo.java".toList
          (processJavaFileContent "com.old".toList "com.new".toList
            "package com.old;".toList)]
      else []) ++
      (if false then [] else
        [.mkdirAll (dirOf (goReplaceOne (goReplaceAll ['.'] [sepChar] "com.old".toList)
          (goReplaceAll ['.'] [sepChar] "com.new".toList)
          "proj/src/com/old/Foo.java".toList))]) ++
      [.rename "proj/src/com/old/Foo.java".toList
        (goReplaceOne (goReplaceAll ['.'] [sepChar] "com.old".toList)
          (goReplaceAll ['.'] [sepChar] "com.new".toList)
          "proj/src/com/old/Foo.java".toList)] :=
  ⟨spec_C2.1 _ _ _ (by decide), spec_C2.2.1 _ _ _ (by decide),
    spec_C2.2.2.2.1 _ _ _ _ false (by decide) (by decide)⟩

/-- C3: the build-file rewrite is exactly the spec's three-stage literal
replacement: full old name, then trailing dot-segment (artifact), then —
only when both dotted groups are non-empty — the group, each applied to the
previous result. -/
theorem spec_C3 : ∀ oldName newName content : List Char,
    processBuildFileContent oldName newName content =
      buildFileReplacementSpec oldName newName content := by
  intro oldName newName content
  have ho : 0 < (splitDot oldName).length :=
    List.length_pos.mpr (splitDot_ne_nil oldName)
  have hn : 0 < (splitDot newName).length :=
    List.length_pos.mpr (splitDot_ne_nil newName)
  simp [processBuildFileContent, buildFileReplacementSpec, lastDotSegment,
    dottedGroup, ho, hn]

/-- C4 counterexample: with old `a.b` and new `a.b.c`, processing
`package a.b;` twice gives `package a.b.c.c;`, not the first run's
`package a.b.c;` — the content transform is not idempotent — and the old
name `a.b` still occurs after the first run. -/
theorem spec_C4_counterexample :
    processJavaFileContent "a.b".toList "a.b.c".toList
        (processJavaFileContent "a.b".toList "a.b.c".toList "package a.b;".toList)
      ≠ processJavaFileContent "a.b".toList "a.b.c".toList "package a.b;".toList ∧
    hasSub "a.b".toList
      (processJavaFileContent "a.b".toList "a.b.c".toList "package a.b;".toList)
      = true := by decide

/-- C4 (amended): a second run changes nothing on content in which no
occurrence of the relevant old patterns remains — `package `/`import ` plus
the old name for Java files; the old name, its artifact and (when both
groups are non-empty) its group for build files.  Without that condition a
second run can change content again and occurrences of the old name can
remain, as `spec_C4_counterexample` shows. -/
theorem spec_C4 :
    (∀ oldName newName content : List Char,
        hasSub ("package ".toList ++ oldName) content = false →
        hasSub ("import ".toList ++ oldName) content = false →
        processJavaFileContent oldName newName content = content) ∧
    (∀ oldName newName content : List Char,
        oldName ≠ [] → lastDotSegment oldName ≠ [] →
        hasSub oldName content = false →
        hasSub (lastDotSegment oldName) content = false →
        (dottedGroup oldName ≠ [] ∧ dottedGroup newName ≠ [] →
          hasSub (dottedGroup oldName) content = false) →
        processBuildFileContent oldName newName content = content) := by
  constructor
  · intro oldName newName content h1 h2
    have hne1 : ("package ".toList ++ oldName) ≠ [] := by
      intro h; exact absurd (List.append_eq_nil.mp h).1 (by decide)
    have hne2 : ("import ".toList ++ oldName) ≠ [] := by
      intro h; exact absurd (List.append_eq_nil.mp h).1 (by decide)
    unfold processJavaFileContent
    rw [goReplaceAll_not_hasSub _ _ _ hne1 h1, goReplaceAll_not_hasSub _ _ _ hne2 h2]
  · intro oldName newName content hon har h1 h2 h3
    have ho : 0 < (splitDot oldName).length :=
      List.length_pos.mpr (splitDot_ne_nil oldName)
    have hn : 0 < (splitDot newName).length :=
      List.length_pos.mpr (splitDot_ne_nil newName)
    simp only [processBuildFileContent, lastDotSegment, dottedGroup] at h2 h3 har ⊢
    rw [if_pos ⟨ho, hn⟩, goReplaceAll_not_hasSub _ _ _ hon h1,
      goReplaceAll_not_hasSub _ _ _ har h2]
    by_cases hg : joinDot (splitDot oldName).dropLast ≠ [] ∧
        joinDot (splitDot newName).dropLast ≠ []
    · rw [if_pos hg, goReplaceAll_not_hasSub _ _ _ hg.1 (h3 hg)]
    · rw [if_neg hg]

/-- Witness for the amended C4 at concrete inputs: content free of the old
patterns is a fixed point of both processors' rewrites. -/
theorem spec_C4_witness :
    processJavaFileContent "com.old".toList "com.new".toList
        "class A".toList = "class A".toList ∧
    processBuildFileContent "com.old".toList "com.new".toList
        "<x>y</x>".toList = "<x>y</x>".toList :=
  ⟨spec_C4.1 _ _ _ (by decide) (by decide),
    spec_C4.2 _ _ _ (by decide) (by decide) (by decide) (by decide) (by decide)⟩

/-- C5: every file the walker dispatches has no `.git` or `target` component
anywhere on its path and its name matches its processor (`.java` suffix for
the Java processor, exactly `pom.xml` or `build.gradle` for the build one);
directories named `.git` or `target` yield nothing at all, and files
matching neither pattern are ignored. -/
theorem spec_C5 :
    (∀ (t : FTree) (e : WalkEntry), e ∈ walkEntries t → SoundEntry e) ∧
    (∀ (name : List Char) (children : FForest),
        name = ".git".toList ∨ name = "target".toList →
        walkEntries (.dir name children) = []) ∧
    (∀ name content : List Char,
        endsWithL ".java".toList name = false →
        name ≠ "pom.xml".toList → name ≠ "build.gradle".toList →
        walkEntries (.file name content) = []) := by
  refine ⟨walkEntries_sound, ?_, ?_⟩
  · intro name children h
    rcases h with rfl | rfl <;> simp [walkEntries]
  · intro name content h1 h2 h3
    simp only [walkEntries]
    rw [if_neg (by simp only [Bool.not_eq_true]; simpa using h1),
      if_neg (fun h => h.elim h2 h3)]

/-- Witness for C5 at a concrete tree: the dispatched `A.java` entry is
sound, a `.git` directory contributes nothing, and a `README.md` file is
ignored. -/
theorem spec_C5_witness :
    SoundEntry ⟨["proj".toList, "A.java".toList], "x".toList, .java⟩ ∧
    walkEntries (.dir ".git".toList (.cons (.file "B.java".toList "y".toList) .nil))
      = [] ∧
    walkEntries (.file "README.md".toList "z".toList) = [] :=
  ⟨spec_C5.1 (.dir "proj".toList (.cons (.file "A.java".toList "x".toList) .nil))
      ⟨["proj".toList, "A.java".toList], "x".toList, .java⟩ (by decide),
    spec_C5.2.1 _ (.cons (.file "B.java".toList "y".toList) .nil) (Or.inl rfl),
    spec_C5.2.2 _ "z".toList (by decide) (by decide) (by decide)⟩

/-- C6: each processor writes the file back exactly when the rewritten
content differs from the original, and the resulting content is always the
rewrite (so it is unchanged when no write happens). -/
theorem spec_C6 : ∀ oldName newName content : List Char,
    ((processJavaFileRun oldName newName content).2 = true ↔
      processJavaFileContent oldName newName content ≠ content) ∧
    (processJavaFileRun oldName newName content).1 =
      processJavaFileContent oldName newName content ∧
    ((processBuildFileRun oldName newName content).2 = true ↔
      processBuildFileContent oldName newName content ≠ content) ∧
    (processBuildFileRun oldName newName content).1 =
      processBuildFileContent oldName newName content := by
  intro oldName newName content
  refine ⟨?_, ?_, ?_, ?_⟩
  · by_cases h : processJavaFileContent oldName newName content = content <;>
      simp [processJavaFileRun, h]
  · by_cases h : processJavaFileContent oldName newName content = content <;>
      simp [processJavaFileRun, h]
  · by_cases h : processBuildFileContent oldName newName content = content <;>
      simp [processBuildFileRun, h]
  · by_cases h : processBuildFileContent oldName newName content = content <;>
      simp [processBuildFileRun, h]

/-- C7: with any of the three flag values empty, `main` exits fatally with
usage before the walk: no filesystem operation is performed. -/
theorem spec_C7 : ∀ (projectDir oldName newName : List Char)
    (dirExists : List Char → Bool) (t : FTree),
    projectDir = [] ∨ oldName = [] ∨ newName = [] →
    mainModel projectDir oldName newName dirExists t = (true, []) := by
  intro projectDir oldName newName dirExists t h
  simp [mainModel, h]

/-- Witness for C7: an empty `--dir` on a tree with a processable file still
performs no filesystem operation. -/
theorem spec_C7_witness :
    mainModel [] "com.old".toList "com.new".toList (fun _ => true)
      (.file "A.java".toList "package com.old;".toList) = (true, []) :=
  spec_C7 [] "com.old".toList "com.new".toList (fun _ => true)
    (.file "A.java".toList "package com.old;".toList) (Or.inl rfl)

/-- C8: the first failing file operation aborts the walk with a fatal error
carrying that file's path and cause, whatever files would have followed —
they are never processed — and a walk succeeds exactly when no visited file
fails. -/
theorem spec_C8 :
    (∀ (pre : List VisitedFile) (f : VisitedFile) (post : List VisitedFile)
        (c : ErrCause),
        (∀ x ∈ pre, x.fail = none) → f.fail = some c →
        walkRun (pre ++ f :: post) = .fatal f.path c) ∧
    (∀ l : List VisitedFile, walkRun l = .ok ↔ ∀ x ∈ l, x.fail = none) :=
  ⟨walkRun_error_of_first_fail, walkRun_ok_iff⟩

/-- Witness for C8 at a concrete walk: the second file's write error aborts
the run with that file's path and cause regardless of the file after it. -/
theorem spec_C8_witness :
    walkRun [⟨"a/A.java".toList, none⟩, ⟨"a/B.java".toList, some .writeErr⟩,
      ⟨"a/C.java".toList, none⟩] = .fatal "a/B.java".toList .writeErr :=
  spec_C8.1 [⟨"a/A.java".toList, none⟩] ⟨"a/B.java".toList, some .writeErr⟩
    [⟨"a/C.java".toList, none⟩] .writeErr (by decide) rfl

/-- C9: with equal old and new names both processors leave content unchanged,
perform no write, and move nothing. -/
theorem spec_C9 : ∀ oldName content filePath : List Char,
    processJavaFileContent oldName oldName content = content ∧
    processBuildFileContent oldName oldName content = content ∧
    processJavaFileNewPath oldName oldName filePath = filePath ∧
    processJavaFileRun oldName oldName content = (content, false) ∧
    processBuildFileRun oldName oldName content = (content, false) ∧
    (∀ dirExists : Bool,
      processJavaFileActions oldName oldName filePath content dirExists = []) ∧
    processBuildFileActions oldName oldName filePath content = [] := by
  intro oldName content filePath
  have h1 : processJavaFileContent oldName oldName content = content := by
    unfold processJavaFileContent
    rw [goReplaceAll_self, goReplaceAll_self]
  have h2 : processBuildFileContent oldName oldName content = content := by
    simp [processBuildFileContent, goReplaceAll_self]
  have h3 : processJavaFileNewPath oldName oldName filePath = filePath := by
    simp [processJavaFileNewPath, goReplaceOne_self]
  refine ⟨h1, h2, h3, ?_, ?_, ?_, ?_⟩
  · simp [processJavaFileRun, h1]
  · simp [processBuildFileRun, h2]
  · intro dirExists
    simp [processJavaFileActions, h1, goReplaceOne_self]
  · simp [processBuildFileActions, h2]

/-- C10: the path rewrite matches anywhere in the full path: for a root whose
own path contains `com/old` before the package directories, the
first-occurrence replacement rewrites the root prefix, not the package
directories. -/
theorem spec_C10 :
    processJavaFileNewPath "com.old".toList "com.new".toList
        "home/com/old/proj/src/com/old/Foo.java".toList
      = "home/com/new/proj/src/com/old/Foo.java".toList ∧
    processJavaFileNewPath "com.old".toList "com.new".toList
        "home/com/old/proj/src/com/old/Foo.java".toList
      ≠ "home/com/old/proj/src/com/new/Foo.java".toList := by decide
